import Mathlib

/-!
# Verification of the gddo in-memory package index and doc utilities

Shallow embedding of the `index` package (posting lists, document store,
field indexes, query engine, hierarchy lookup) and of the pure parts of
`doc/util.go` (`isDocFile`, `httpGetBytesCompare`).

The `index` package's implementation file is not present in the source
tree; only its test file is.  Its definitions below are therefore
modelled from the specification (and cross-checked against the test
vectors of the test file), as their doc comments state.  `doc/util.go`
is present and its functions are translated directly.

Strings are embedded as `List Char` (Go code operates on the underlying
byte/char sequence); machine integers as `Nat`, with `% 2 ^ 32`
reductions where the Go code computes on 32-bit words (MD5).
-/

/-- A document identifier inside a posting list.  Modelled from the spec:
the `posting` type of the missing `index` implementation file, "an opaque,
monotonically assigned integer".  The test file builds values as
`posting{1}`, i.e. a wrapper around one integer, so we use `Nat`. -/
abbrev posting := Nat

/-- Modelled from the spec: the `postingList` type of the missing `index`
implementation file, "a sorted, duplicate-free sequence of document
identifiers". -/
abbrev postingList := List posting

/-- The posting-list invariant: sorted ascending, no duplicates
(every earlier element is strictly smaller than every later one). -/
def plSorted (l : postingList) : Prop := List.Pairwise (· < ·) l

instance (l : postingList) : Decidable (plSorted l) := by
  unfold plSorted; infer_instance

/-- Modelled from the spec: `postingList.add` of the missing `index`
implementation file — "inserts `id` preserving sort order; if `id`
already present, no-op". -/
def postingList.add : postingList → posting → postingList
  | [], v => [v]
  | x :: xs, v =>
    if v < x then v :: x :: xs
    else if v = x then x :: xs
    else x :: postingList.add xs v

/-- Modelled from the spec: `postingList.remove` of the missing `index`
implementation file — "deletes `id` if present; no-op if absent.  Never
errors" (a total function). -/
def postingList.remove : postingList → posting → postingList
  | [], _ => []
  | x :: xs, v =>
    if v = x then xs
    else x :: postingList.remove xs v

/-- Modelled from the spec: `postingList.intersect` of the missing
`index` implementation file — "computes the sorted intersection of the
receiver and `other` using a two-pointer merge (advance whichever
pointer's current value is smaller; on equality, emit and advance
both), writing results into a caller-supplied, reusable output buffer".
The buffer `dst` is truncated to length zero before any result is
written, so the returned list does not depend on its contents; it is
kept as an (ignored) argument to mirror the Go signature
`p.intersect(dst, q)` exercised by the test file. -/
def postingList.intersect (p : postingList) (_dst : postingList) (q : postingList) :
    postingList :=
  go p q
where
  /-- The two-pointer merge loop. -/
  go : postingList → postingList → postingList
    | [], _ => []
    | _ :: _, [] => []
    | x :: xs, y :: ys =>
      if x < y then go xs (y :: ys)
      else if y < x then go (x :: xs) ys
      else x :: go xs ys
  termination_by a b => a.length + b.length

/-- The four `addTests` vectors of the repository's test file hold for the
modelled `add`. -/
theorem addTests_pass :
    postingList.add [1] 1 = [1] ∧
    postingList.add [1] 3 = [1, 3] ∧
    postingList.add [1, 3] 2 = [1, 2, 3] ∧
    postingList.add [1, 2, 3] 2 = [1, 2, 3] := by
  decide

/-- The four `removeTests` vectors of the repository's test file hold for
the modelled `remove`. -/
theorem removeTests_pass :
    postingList.remove [1] 1 = [] ∧
    postingList.remove [1, 3] 3 = [1] ∧
    postingList.remove [1, 2, 3] 2 = [1, 3] ∧
    postingList.remove [1, 3] 2 = [1, 3] := by
  decide

/-- The four `intersectTests` vectors of the repository's test file hold
for the modelled `intersect` (with the empty buffer the test passes). -/
theorem intersectTests_pass :
    postingList.intersect [1] [] [1] = [1] ∧
    postingList.intersect [1] [] [2] = [] ∧
    postingList.intersect [2] [] [1] = [] ∧
    postingList.intersect [1, 2] [] [2, 3] = [2] := by
  simp [postingList.intersect, postingList.intersect.go]

/-! ## Posting-list lemmas -/

theorem mem_add {l : postingList} {v i : posting} :
    i ∈ l.add v ↔ i ∈ l ∨ i = v := by
  induction l with
  | nil => simp [postingList.add]
  | cons x xs ih =>
    by_cases h1 : v < x
    · simp [postingList.add, h1]; tauto
    · by_cases h2 : v = x
      · subst h2; simp [postingList.add, h1]; tauto
      · simp [postingList.add, h1, h2, ih]; tauto

theorem sorted_add {l : postingList} {v : posting} (h : plSorted l) :
    plSorted (l.add v) := by
  induction l with
  | nil => simp [postingList.add, plSorted]
  | cons x xs ih =>
    rw [plSorted, List.pairwise_cons] at h
    by_cases h1 : v < x
    · rw [plSorted, postingList.add]
      simp only [if_pos h1, List.pairwise_cons]
      refine ⟨?_, h.1, h.2⟩
      intro a ha
      rcases List.mem_cons.mp ha with rfl | ha
      · exact h1
      · exact lt_trans h1 (h.1 a ha)
    · by_cases h2 : v = x
      · subst h2
        rw [plSorted, postingList.add]
        simp only [if_neg h1, if_pos rfl]
        exact List.Pairwise.cons h.1 h.2
      · have hx : x < v := lt_of_le_of_ne (not_lt.mp h1) (Ne.symm h2)
        rw [plSorted, postingList.add]
        simp only [if_neg h1, if_neg h2, List.pairwise_cons]
        refine ⟨?_, ih h.2⟩
        intro a ha
        rcases mem_add.mp ha with ha | rfl
        · exact h.1 a ha
        · exact hx

theorem add_of_mem {l : postingList} {v : posting} (h : plSorted l) (hv : v ∈ l) :
    l.add v = l := by
  induction l with
  | nil => cases hv
  | cons x xs ih =>
    rw [plSorted, List.pairwise_cons] at h
    rcases List.mem_cons.mp hv with rfl | hv
    · simp [postingList.add]
    · have hx : x < v := h.1 v hv
      have h1 : ¬ v < x := lt_asymm hx
      have h2 : ¬ v = x := ne_of_gt hx
      rw [postingList.add, if_neg h1, if_neg h2, ih h.2 hv]

theorem remove_sublist (l : postingList) (v : posting) :
    (l.remove v).Sublist l := by
  induction l with
  | nil => simp [postingList.remove]
  | cons x xs ih =>
    by_cases h : v = x
    · rw [postingList.remove, if_pos h]
      exact List.sublist_cons_self x xs
    · rw [postingList.remove, if_neg h]
      exact ih.cons₂ x

theorem sorted_remove {l : postingList} {v : posting} (h : plSorted l) :
    plSorted (l.remove v) :=
  List.Pairwise.sublist (remove_sublist l v) h

theorem remove_of_not_mem {l : postingList} {v : posting} (hv : v ∉ l) :
    l.remove v = l := by
  induction l with
  | nil => rfl
  | cons x xs ih =>
    have h : ¬ v = x := fun h => hv (h ▸ List.mem_cons_self x xs)
    rw [postingList.remove, if_neg h, ih (fun hm => hv (List.mem_cons_of_mem x hm))]

theorem mem_intersect_go (i : posting) (p q : postingList) :
    plSorted p → plSorted q →
      (i ∈ postingList.intersect.go p q ↔ i ∈ p ∧ i ∈ q) := by
  induction p, q using postingList.intersect.go.induct with
  | case1 q => intro _ _; simp [postingList.intersect.go]
  | case2 x xs => intro _ _; simp [postingList.intersect.go]
  | case3 x xs y ys hxy ih =>
    intro hp hq
    rw [postingList.intersect.go, if_pos hxy, ih hp.of_cons hq]
    constructor
    · exact fun h => ⟨List.mem_cons_of_mem x h.1, h.2⟩
    · rintro ⟨hx, hy⟩
      rcases List.mem_cons.mp hx with rfl | hx
      · exfalso
        rcases List.mem_cons.mp hy with rfl | hy
        · exact lt_irrefl i hxy
        · exact lt_irrefl i (lt_trans hxy ((List.pairwise_cons.mp hq).1 i hy))
      · exact ⟨hx, hy⟩
  | case4 x xs y ys hxy hyx ih =>
    intro hp hq
    rw [postingList.intersect.go, if_neg hxy, if_pos hyx, ih hp hq.of_cons]
    constructor
    · exact fun h => ⟨h.1, List.mem_cons_of_mem y h.2⟩
    · rintro ⟨hx, hy⟩
      rcases List.mem_cons.mp hy with rfl | hy
      · exfalso
        rcases List.mem_cons.mp hx with rfl | hx
        · exact lt_irrefl i hyx
        · exact lt_irrefl i (lt_trans hyx ((List.pairwise_cons.mp hp).1 i hx))
      · exact ⟨hx, hy⟩
  | case5 x xs y ys hxy hyx ih =>
    intro hp hq
    have hxe : x = y := le_antisymm (not_lt.mp hyx) (not_lt.mp hxy)
    subst hxe
    rw [postingList.intersect.go, if_neg hxy, if_neg hyx]
    simp only [List.mem_cons, ih hp.of_cons hq.of_cons]
    tauto

theorem sorted_intersect_go (p q : postingList) :
    plSorted p → plSorted q → plSorted (postingList.intersect.go p q) := by
  induction p, q using postingList.intersect.go.induct with
  | case1 q => intro _ _; rw [postingList.intersect.go]; exact List.Pairwise.nil
  | case2 x xs => intro _ _; rw [postingList.intersect.go]; exact List.Pairwise.nil
  | case3 x xs y ys hxy ih =>
    intro hp hq
    rw [postingList.intersect.go, if_pos hxy]
    exact ih hp.of_cons hq
  | case4 x xs y ys hxy hyx ih =>
    intro hp hq
    rw [postingList.intersect.go, if_neg hxy, if_pos hyx]
    exact ih hp hq.of_cons
  | case5 x xs y ys hxy hyx ih =>
    intro hp hq
    have hxe : x = y := le_antisymm (not_lt.mp hyx) (not_lt.mp hxy)
    subst hxe
    rw [postingList.intersect.go, if_neg hxy, if_neg hyx]
    rw [plSorted, List.pairwise_cons]
    refine ⟨?_, ih hp.of_cons hq.of_cons⟩
    intro a ha
    have := (mem_intersect_go a xs ys hp.of_cons hq.of_cons).mp ha
    exact (List.pairwise_cons.mp hp).1 a this.1

theorem mem_intersect (i : posting) (a dst b : postingList)
    (ha : plSorted a) (hb : plSorted b) :
    i ∈ a.intersect dst b ↔ i ∈ a ∧ i ∈ b :=
  mem_intersect_go i a b ha hb

/-- C4: for all sorted, duplicate-free posting lists `A` and `B` (and any
output buffer `dst`), `A.intersect(dst, B)` contains exactly the
identifiers present in both `A` and `B`, is itself sorted ascending and
duplicate-free, and equals `B.intersect(dst, A)` as a set. -/
theorem intersect_correct (a b dst : postingList)
    (ha : plSorted a) (hb : plSorted b) :
    (∀ i, i ∈ a.intersect dst b ↔ i ∈ a ∧ i ∈ b) ∧
    plSorted (a.intersect dst b) ∧
    (∀ i, i ∈ a.intersect dst b ↔ i ∈ b.intersect dst a) := by
  refine ⟨fun i => mem_intersect i a dst b ha hb,
    sorted_intersect_go a b ha hb, fun i => ?_⟩
  rw [mem_intersect i a dst b ha hb, mem_intersect i b dst a hb ha]
  exact and_comm

/-- Witness for C4 at `A = [1, 2]`, `B = [2, 3]`, `dst = []`. -/
theorem intersect_correct_witness :
    plSorted [1, 2] ∧ plSorted [2, 3] ∧
    ((∀ i, i ∈ postingList.intersect [1, 2] [] [2, 3] ↔ i ∈ [1, 2] ∧ i ∈ [2, 3]) ∧
     plSorted (postingList.intersect [1, 2] [] [2, 3]) ∧
     (∀ i, i ∈ postingList.intersect [1, 2] [] [2, 3] ↔
        i ∈ postingList.intersect [2, 3] [] [1, 2])) :=
  ⟨by decide, by decide, intersect_correct [1, 2] [2, 3] [] (by decide) (by decide)⟩

/-- C5: for every sorted, duplicate-free posting list and every posting
identifier, `add` returns a sorted, duplicate-free list and is a no-op
when the identifier is already present; `remove` returns a sorted,
duplicate-free list, is a no-op when the identifier is absent, and (being
a total function) never errors. -/
theorem add_remove_invariant (l : postingList) (v : posting) (h : plSorted l) :
    plSorted (l.add v) ∧ (v ∈ l → l.add v = l) ∧
    plSorted (l.remove v) ∧ (v ∉ l → l.remove v = l) :=
  ⟨sorted_add h, fun hv => add_of_mem h hv,
   sorted_remove h, fun hv => remove_of_not_mem hv⟩

/-- Witness for C5 at `l = [1, 3]`, `v = 2`. -/
theorem add_remove_invariant_witness :
    plSorted [1, 3] ∧
    (plSorted (postingList.add [1, 3] 2) ∧
     (2 ∈ [1, 3] → postingList.add [1, 3] 2 = [1, 3]) ∧
     plSorted (postingList.remove [1, 3] 2) ∧
     (2 ∉ [1, 3] → postingList.remove [1, 3] 2 = [1, 3])) :=
  ⟨by decide, add_remove_invariant [1, 3] 2 (by decide)⟩

/-! ## Strings, the package record and the index state -/

/-- Strings, embedded as lists of characters. -/
abbrev Str := List Char

/-- Go's built-in string comparison `a < b`: lexicographic on the
character sequence, a proper prefix being smaller.  This is the order
underlying the `SortByPath` sort mode. -/
def strLt : Str → Str → Bool
  | [], [] => false
  | [], _ :: _ => true
  | _ :: _, [] => false
  | a :: as, b :: bs =>
    if a < b then true
    else if b < a then false
    else strLt as bs

/-- Lower-casing of a string, character by character (models Go's
`strings.ToLower` on the ASCII strings the index handles). -/
def strToLower (s : Str) : Str := s.map Char.toLower

/-- ASCII whitespace, as recognized by Go's `strings.Fields`. -/
def isSpaceChar (c : Char) : Bool :=
  c = ' ' || c = '\t' || c = '\n' || c = '\x0b' || c = '\x0c' || c = '\r'

/-- Accumulator loop of `fields`: `acc` holds the current word reversed. -/
def fieldsAux : Str → Str → List Str
  | [], acc => if acc = [] then [] else [acc.reverse]
  | c :: cs, acc =>
    if isSpaceChar c then
      if acc = [] then fieldsAux cs []
      else acc.reverse :: fieldsAux cs []
    else fieldsAux cs (c :: acc)

/-- Go's `strings.Fields`: splits a string around runs of whitespace,
returning the (possibly empty) list of non-empty words. -/
def fields (s : Str) : List Str := fieldsAux s []

/-- The package record stored by the index (`doc.Package`).  The fields
the index interprets are listed individually; everything the index
stores opaquely and returns verbatim (declared functions, types,
examples, the `IsCmd` flag, …) is collapsed into the uninterpreted
`payload` field, following the spec's instruction to "model as a
generic payload field the index stores and returns but never
indexes". -/
structure Package where
  importPath : Str
  projectRoot : Str
  projectName : Str
  projectURL : Str
  name : Str
  synopsis : Str
  doc : Str
  imports : List Str
  testImports : List Str
  payload : Nat
deriving DecidableEq, Repr, Inhabited

/-- The error taxonomy of the index core (spec §7). -/
inductive IndexErr where
  | invalidArgument
  | notFound
deriving DecidableEq, Repr

/-- The sort modes of `Query`; the test file exercises `SortByPath`
(ascending lexicographic order of import paths). -/
inductive SortBy where
  | byPath
deriving DecidableEq, Repr

/-- Modelled from the spec: the index state of the missing `index`
implementation file.  `docs` is the Document Store — one entry per
stored import path, carrying the path's stable document identifier —
and `nextId` is the monotone identifier allocator ("an opaque,
monotonically assigned integer, … never reused").  The field indexes
are derived views of this state (see `Index.idsWhere` below): the spec's
Field Index invariant states they always equal exactly the sets derived
from the current records, so the derived view is their unique legal
content. -/
structure Index where
  nextId : Nat
  docs : List (Nat × Package)
deriving DecidableEq, Repr

/-- Modelled from the spec: `New`, the index constructor (an index with
zero documents). -/
def Index.new : Index := ⟨0, []⟩

/-- Modelled from the spec: `Put` — "fails with `InvalidArgument` if
the import path is empty.  Otherwise assigns a new identifier if the path is
unseen, or reuses the existing identifier if the path is already stored
(replacement, not insertion of a duplicate).  Stores the record
verbatim."  Returns the new state paired with the error result. -/
def Index.put (x : Index) (pkg : Package) : Index × Option IndexErr :=
  if pkg.importPath = [] then (x, some IndexErr.invalidArgument)
  else if x.docs.any fun e => decide (e.2.importPath = pkg.importPath) then
    ({ x with
        docs := x.docs.map fun e =>
          if e.2.importPath = pkg.importPath then (e.1, pkg) else e },
      none)
  else
    ({ nextId := x.nextId + 1, docs := x.docs ++ [(x.nextId, pkg)] }, none)

/-- Modelled from the spec: `Get` — "returns the stored record for an
exact path match; fails with `NotFound` if the path has never been
stored or was removed". -/
def Index.get (x : Index) (path : Str) : Except IndexErr Package :=
  match x.docs.find? fun e => decide (e.2.importPath = path) with
  | some e => Except.ok e.2
  | none => Except.error IndexErr.notFound

/-- The posting list of the documents whose record satisfies `p`,
in identifier order.  Every field index's posting list is an instance of
this (the spec's Field Index invariant pins each one to exactly this
set). -/
def Index.idsWhere (x : Index) (p : Package → Bool) : postingList :=
  (x.docs.filter fun e => p e.2).map fun e => e.1

/-- Modelled from the spec and the test file: the All index.  The spec
calls it "a single posting list containing every currently stored
document identifier", but the test file's `all:` vector omits the
stored record `example.com/src`, whose package name is empty, while
listing the other five stored records; the missing implementation
therefore indexes a record only when its package name is non-empty
(directory-only records are stored and `Get`-able but unindexed). -/
def Index.allIds (x : Index) : postingList :=
  x.idsWhere fun pkg => decide (pkg.name ≠ [])

/-- Modelled from the spec: the Project index — "each record's
project-root value (including the empty string …) maps to the posting
list of documents sharing that root". -/
def Index.projectIds (x : Index) (root : Str) : postingList :=
  x.idsWhere fun pkg => decide (pkg.projectRoot = root)

/-- Modelled from the spec: the Import index — "each string in the
record's import list maps to the posting list of documents that declare
that import". -/
def Index.importIds (x : Index) (imp : Str) : postingList :=
  x.idsWhere fun pkg => decide (imp ∈ pkg.imports)

/-- Modelled from the spec: the words of the Term index contributed by
one record — "built from the package name, synopsis, and documentation
text, tokenized into lower-cased words". -/
def pkgTerms (pkg : Package) : List Str :=
  fields (strToLower pkg.name) ++ fields (strToLower pkg.synopsis) ++
    fields (strToLower pkg.doc)

/-- Modelled from the spec: the matching set of one free-text term —
"name-equality match unioned with term-index containment match" (a
union of sets is the set of documents satisfying the disjunction). -/
def Index.termMatchIds (x : Index) (t : Str) : postingList :=
  x.idsWhere fun pkg => decide (strToLower pkg.name = t ∨ t ∈ pkgTerms pkg)

/-- The `all:` query form's recognized prefix. -/
def allPre : Str := ['a', 'l', 'l', ':']

/-- The `project:` query form's recognized prefix. -/
def projectPre : Str := ['p', 'r', 'o', 'j', 'e', 'c', 't', ':']

/-- The `import:` query form's recognized prefix. -/
def importPre : Str := ['i', 'm', 'p', 'o', 'r', 't', ':']

/-- Modelled from the spec (§4.4 query grammar): parse the query string
by longest recognized prefix and produce the matching identifier set.
`all:` ignores the remainder and returns the All index; `project:` and
`import:` return the named index's posting list for the remainder
verbatim; anything else is free text — split on whitespace, lower-case,
intersect the per-term matching sets with `postingList.intersect`, zero
terms yielding the empty result. -/
def Index.queryIds (x : Index) (q : Str) : postingList :=
  if allPre.isPrefixOf q then x.allIds
  else if projectPre.isPrefixOf q then x.projectIds (q.drop projectPre.length)
  else if importPre.isPrefixOf q then x.importIds (q.drop importPre.length)
  else
    match fields (strToLower q) with
    | [] => []
    | t :: ts =>
      ts.foldl (fun acc t2 => acc.intersect [] (x.termMatchIds t2))
        (x.termMatchIds t)

/-- Look a document identifier up in the Document Store. -/
def Index.lookupId (x : Index) (i : Nat) : Option Package :=
  (x.docs.find? fun e => decide (e.1 = i)).map fun e => e.2

/-- Materialize a result identifier set into concrete records via the
Document Store. -/
def Index.resolve (x : Index) (ids : postingList) : List Package :=
  ids.filterMap x.lookupId

/-- `SortByPath` record order: `a` before `b` when `b`'s import path is
not strictly smaller (ascending lexicographic, ties irrelevant as paths
are unique). -/
def pathLe (a b : Package) : Prop := strLt b.importPath a.importPath = false

instance : DecidableRel pathLe := fun a b => by unfold pathLe; infer_instance

/-- Sort a result list ascending by import path (the `SortByPath` mode). -/
def sortByPath (l : List Package) : List Package := List.insertionSort pathLe l

/-- Modelled from the spec: `Query` — evaluate the query string against
the field indexes, materialize the identifiers into records, and order
them by the requested sort mode (`SortByPath` being the only mode the
test file exercises). -/
def Index.query (x : Index) (q : Str) (sb : SortBy) : List Package :=
  match sb with
  | SortBy.byPath => sortByPath (x.resolve (x.queryIds q))

/-- The spec's §4.5 direct-child predicate, stated in the spec's own
words for comparison with the stored behavior: is `path` exactly
`parent ++ "/" ++ seg` for a non-empty `seg` containing no further
`/`?  (The repository's `testChildren` vectors show the implemented
`Subdirs` does NOT use this predicate: it returns descendants at any
depth that carry a package name.) -/
def isChildPath (parent path : Str) : Bool :=
  if parent.isPrefixOf path then
    match path.drop parent.length with
    | [] => false
    | c :: seg => decide (c = '/') && decide (seg ≠ []) && !decide ('/' ∈ seg)
  else false

/-- Modelled from the spec and the test file: `Subdirs`, a scan of the
Document Store's key space returning a sorted sequence and never an
error.  The test file's `testChildren` vector expects
`Subdirs("example.com")` to return `example.com/src/a` and
`example.com/src/b` — descendants two levels down — while excluding the
stored name-less record `example.com/src`; the missing implementation
therefore keeps every stored document whose import path extends
`path ++ "/"` (at any depth) and whose package name is non-empty,
rather than the spec §4.5's direct children. -/
def Index.subdirs (x : Index) (path : Str) : List Package :=
  sortByPath ((x.docs.filter fun e =>
    (path ++ ['/']).isPrefixOf e.2.importPath && decide (e.2.name ≠ [])).map
      fun e => e.2)

/-- Well-formedness of an index state, maintained by `Index.new` and
`Index.put`: document identifiers strictly increase along the store (so
every posting list derived from it is sorted and duplicate-free), all
identifiers are below the allocator, import paths are unique keys, and
no stored path is empty. -/
def Index.wf (x : Index) : Prop :=
  List.Pairwise (· < ·) (x.docs.map fun e => e.1) ∧
  (∀ e ∈ x.docs, e.1 < x.nextId) ∧
  (x.docs.map fun e => e.2.importPath).Nodup ∧
  (∀ e ∈ x.docs, e.2.importPath ≠ [])

instance (x : Index) : Decidable x.wf := by
  unfold Index.wf; infer_instance

/-! ## Order lemmas for `strLt` and `sortByPath` -/

theorem strLt_irrefl (a : Str) : strLt a a = false := by
  induction a with
  | nil => rfl
  | cons c cs ih => simp [strLt, ih]

theorem strLt_trans : ∀ {a b c : Str},
    strLt a b = true → strLt b c = true → strLt a c = true := by
  intro a b c h1 h2
  induction b generalizing a c with
  | nil => cases a <;> simp [strLt] at h1
  | cons y ys ih =>
    cases c with
    | nil => simp [strLt] at h2
    | cons z zs =>
      cases a with
      | nil => simp [strLt]
      | cons x xs =>
        rw [strLt] at h1 h2 ⊢
        by_cases hxy : x < y
        · by_cases hyz : y < z
          · rw [if_pos (lt_trans hxy hyz)]
          · by_cases hzy : z < y
            · rw [if_neg hyz, if_pos hzy] at h2; cases h2
            · have hyz2 : y = z := le_antisymm (not_lt.mp hzy) (not_lt.mp hyz)
              subst hyz2
              rw [if_pos hxy]
        · by_cases hyx : y < x
          · rw [if_pos hyx] at h1
            rw [if_neg hxy] at h1
            cases h1
          · have hxy2 : x = y := le_antisymm (not_lt.mp hyx) (not_lt.mp hxy)
            subst hxy2
            rw [if_neg hxy, if_neg hyx] at h1
            by_cases hyz : x < z
            · rw [if_pos hyz]
            · by_cases hzy : z < x
              · rw [if_neg hyz, if_pos hzy] at h2; cases h2
              · have hyz2 : x = z := le_antisymm (not_lt.mp hzy) (not_lt.mp hyz)
                subst hyz2
                rw [if_neg hyz, if_neg hyz] at h2 ⊢
                exact ih h1 h2

theorem strLt_total (a b : Str) : strLt a b = true ∨ a = b ∨ strLt b a = true := by
  induction a generalizing b with
  | nil => cases b <;> simp [strLt]
  | cons x xs ih =>
    cases b with
    | nil => right; right; simp [strLt]
    | cons y ys =>
      by_cases hxy : x < y
      · left; rw [strLt, if_pos hxy]
      · by_cases hyx : y < x
        · right; right; rw [strLt, if_pos hyx]
        · have hxe : x = y := le_antisymm (not_lt.mp hyx) (not_lt.mp hxy)
          subst hxe
          rcases ih ys with h | h | h
          · left; rw [strLt, if_neg hxy, if_neg hxy]; exact h
          · right; left; rw [h]
          · right; right; rw [strLt, if_neg hxy, if_neg hxy]; exact h

instance : IsTotal Package pathLe :=
  ⟨by
    intro a b
    by_cases h : strLt b.importPath a.importPath = true
    · right
      unfold pathLe
      cases hc : strLt a.importPath b.importPath with
      | false => rfl
      | true =>
        have := strLt_trans hc h
        rw [strLt_irrefl] at this
        cases this
    · left
      unfold pathLe
      exact Bool.not_eq_true _ ▸ h⟩

instance : IsTrans Package pathLe :=
  ⟨by
    intro a b c hab hbc
    unfold pathLe at *
    cases hc : strLt c.importPath a.importPath with
    | false => rfl
    | true =>
      exfalso
      rcases strLt_total a.importPath b.importPath with h | h | h
      · have := strLt_trans hc h
        rw [hbc] at this
        cases this
      · rw [h] at hc
        rw [hbc] at hc
        cases hc
      · rw [hab] at h
        cases h⟩

theorem perm_sortByPath (l : List Package) : (sortByPath l).Perm l :=
  List.perm_insertionSort pathLe l

theorem sorted_sortByPath (l : List Package) : List.Sorted pathLe (sortByPath l) :=
  List.sorted_insertionSort pathLe l

theorem pairwise_strLt_of_sorted {l : List Package}
    (hs : List.Sorted pathLe l) (hnd : (l.map fun p => p.importPath).Nodup) :
    List.Pairwise (fun a b : Package => strLt a.importPath b.importPath = true) l := by
  have hnd2 : l.Pairwise fun a b : Package => a.importPath ≠ b.importPath :=
    List.pairwise_map.mp hnd
  have hand := List.Pairwise.and hs hnd2
  refine hand.imp ?_
  rintro a b ⟨h1, h2⟩
  rcases strLt_total a.importPath b.importPath with h | h | h
  · exact h
  · exact absurd h h2
  · unfold pathLe at h1
    rw [h1] at h
    cases h

/-! ## Document-store lemmas -/

theorem find?_decide_eq_id {l : List (Nat × Package)}
    (hnd : (l.map fun e => e.1).Nodup) {e : Nat × Package} (he : e ∈ l) :
    (l.find? fun e2 => decide (e2.1 = e.1)) = some e := by
  induction l with
  | nil => cases he
  | cons a l ih =>
    rw [List.map_cons, List.nodup_cons] at hnd
    rcases List.mem_cons.mp he with rfl | he2
    · exact List.find?_cons_of_pos _ (decide_eq_true rfl)
    · have hne : ¬ (a.1 = e.1) := by
        intro h
        exact hnd.1 (h ▸ List.mem_map_of_mem (fun e => e.1) he2)
      rw [List.find?_cons_of_neg _ (by simpa using hne)]
      exact ih hnd.2 he2

theorem snd_unique {l : List (Nat × Package)}
    (hnd : (l.map fun e => e.1).Nodup) {e : Nat × Package} (he : e ∈ l)
    {b : Package} (hb : (e.1, b) ∈ l) : e.2 = b := by
  have h1 := find?_decide_eq_id hnd he
  have h2 := find?_decide_eq_id hnd hb
  rw [h1] at h2
  have h3 : e = (e.1, b) := Option.some.inj h2
  exact congrArg Prod.snd h3

theorem lookupId_eq {x : Index} (hnd : (x.docs.map fun e => e.1).Nodup)
    {i : Nat} {pkg : Package} (h : (i, pkg) ∈ x.docs) :
    x.lookupId i = some pkg := by
  unfold Index.lookupId
  rw [find?_decide_eq_id hnd h]
  rfl

theorem lookupId_mem {x : Index} {i : Nat} {pkg : Package}
    (h : x.lookupId i = some pkg) : (i, pkg) ∈ x.docs := by
  unfold Index.lookupId at h
  cases hf : x.docs.find? fun e => decide (e.1 = i) with
  | none => rw [hf] at h; cases h
  | some e =>
    rw [hf] at h
    have h1 : e ∈ x.docs := List.mem_of_find?_eq_some hf
    have h3 : e.1 = i := by
      have := List.find?_some hf
      simpa using this
    have h4 : e.2 = pkg := by cases h; rfl
    cases e
    cases h3
    cases h4
    exact h1

theorem mem_resolve {x : Index} (hnd : (x.docs.map fun e => e.1).Nodup)
    {ids : postingList} {pkg : Package} :
    pkg ∈ x.resolve ids ↔ ∃ i ∈ ids, (i, pkg) ∈ x.docs := by
  unfold Index.resolve
  rw [List.mem_filterMap]
  constructor
  · rintro ⟨i, hi, hl⟩
    exact ⟨i, hi, lookupId_mem hl⟩
  · rintro ⟨i, hi, hm⟩
    exact ⟨i, hi, lookupId_eq hnd hm⟩

theorem resolve_map_fst {x : Index} (hnd : (x.docs.map fun e => e.1).Nodup) :
    ∀ l : List (Nat × Package), (∀ e ∈ l, e ∈ x.docs) →
      x.resolve (l.map fun e => e.1) = l.map fun e => e.2 := by
  intro l hl
  induction l with
  | nil => rfl
  | cons a l ih =>
    have ha : x.lookupId a.1 = some a.2 :=
      lookupId_eq hnd (by
        have : a ∈ x.docs := hl a (List.mem_cons_self a l)
        exact this)
    rw [List.map_cons, List.map_cons]
    unfold Index.resolve at ih ⊢
    rw [List.filterMap_cons]
    rw [ha]
    rw [ih fun e he => hl e (List.mem_cons_of_mem a he)]

theorem resolve_idsWhere {x : Index} (hnd : (x.docs.map fun e => e.1).Nodup)
    (p : Package → Bool) :
    x.resolve (x.idsWhere p) = (x.docs.filter fun e => p e.2).map fun e => e.2 :=
  resolve_map_fst hnd _ fun _ he => (List.mem_filter.mp he).1

theorem resolve_allIds {x : Index} (hnd : (x.docs.map fun e => e.1).Nodup) :
    x.resolve x.allIds =
      (x.docs.filter fun e => decide (e.2.name ≠ [])).map fun e => e.2 :=
  resolve_idsWhere hnd _

theorem sorted_idsWhere {x : Index}
    (h : List.Pairwise (· < ·) (x.docs.map fun e => e.1)) (p : Package → Bool) :
    plSorted (x.idsWhere p) := by
  unfold Index.idsWhere plSorted
  exact List.Pairwise.sublist (List.Sublist.map _ (List.filter_sublist x.docs)) h

theorem mem_idsWhere_iff {x : Index} (hnd : (x.docs.map fun e => e.1).Nodup)
    {i : Nat} {pkg : Package} (hm : (i, pkg) ∈ x.docs) (p : Package → Bool) :
    i ∈ x.idsWhere p ↔ p pkg = true := by
  unfold Index.idsWhere
  rw [List.mem_map]
  constructor
  · rintro ⟨e, hef, he1⟩
    have he2 := List.mem_filter.mp hef
    have hm2 : (e.1, pkg) ∈ x.docs := by rw [he1]; exact hm
    have : e.2 = pkg := snd_unique hnd he2.1 hm2
    rw [← this]
    exact he2.2
  · intro hp
    exact ⟨(i, pkg), List.mem_filter.mpr ⟨hm, hp⟩, rfl⟩

theorem foldl_intersect_terms (g : Str → postingList) (ts : List Str)
    (init : postingList) (hi : plSorted init) (hg : ∀ t, plSorted (g t)) :
    plSorted (ts.foldl (fun acc t => acc.intersect [] (g t)) init) ∧
    ∀ i, (i ∈ ts.foldl (fun acc t => acc.intersect [] (g t)) init ↔
      i ∈ init ∧ ∀ t ∈ ts, i ∈ g t) := by
  induction ts generalizing init with
  | nil => simpa using hi
  | cons t ts ih =>
    rw [List.foldl_cons]
    have h1 : plSorted (init.intersect [] (g t)) :=
      sorted_intersect_go init (g t) hi (hg t)
    have h2 := ih (init.intersect [] (g t)) h1
    refine ⟨h2.1, fun i => ?_⟩
    rw [h2.2 i, mem_intersect i init [] (g t) hi (hg t), List.forall_mem_cons]
    tauto

/-! ## Well-formedness of the index state -/

theorem map_replace_fst (l : List (Nat × Package)) (pkg : Package) :
    ((l.map fun e =>
        if e.2.importPath = pkg.importPath then (e.1, pkg) else e).map fun e => e.1) =
      l.map fun e => e.1 := by
  induction l with
  | nil => rfl
  | cons a l ih =>
    simp only [List.map_cons, ih]
    by_cases ha : a.2.importPath = pkg.importPath
    · rw [if_pos ha]
    · rw [if_neg ha]

theorem map_replace_path (l : List (Nat × Package)) (pkg : Package) :
    ((l.map fun e =>
        if e.2.importPath = pkg.importPath then (e.1, pkg) else e).map
          fun e => e.2.importPath) =
      l.map fun e => e.2.importPath := by
  induction l with
  | nil => rfl
  | cons a l ih =>
    simp only [List.map_cons, ih]
    by_cases ha : a.2.importPath = pkg.importPath
    · rw [if_pos ha]
      simp only [List.cons.injEq, and_true]
      exact ha.symm
    · rw [if_neg ha]

/-- The empty index is well-formed. -/
theorem wf_new : Index.new.wf := by decide

/-- `put` preserves well-formedness of the index state. -/
theorem wf_put {x : Index} (hw : x.wf) (pkg : Package) : (x.put pkg).1.wf := by
  obtain ⟨h1, h2, h3, h4⟩ := hw
  unfold Index.put
  by_cases he : pkg.importPath = []
  · rw [if_pos he]
    exact ⟨h1, h2, h3, h4⟩
  · rw [if_neg he]
    by_cases hex : (x.docs.any fun e => decide (e.2.importPath = pkg.importPath)) = true
    · rw [if_pos hex]
      refine ⟨?_, ?_, ?_, ?_⟩
      · rw [map_replace_fst]
        exact h1
      · intro e hm
        rcases List.mem_map.mp hm with ⟨a, ha, rfl⟩
        by_cases hp : a.2.importPath = pkg.importPath
        · rw [if_pos hp]
          exact h2 a ha
        · rw [if_neg hp]
          exact h2 a ha
      · rw [map_replace_path]
        exact h3
      · intro e hm
        rcases List.mem_map.mp hm with ⟨a, ha, rfl⟩
        by_cases hp : a.2.importPath = pkg.importPath
        · rw [if_pos hp]
          exact he
        · rw [if_neg hp]
          exact h4 a ha
    · rw [if_neg hex]
      have hnew : ∀ e ∈ x.docs, e.2.importPath ≠ pkg.importPath := by
        intro e hm hp
        exact hex (List.any_eq_true.mpr ⟨e, hm, decide_eq_true hp⟩)
      refine ⟨?_, ?_, ?_, ?_⟩
      · rw [List.map_append, List.pairwise_append]
        refine ⟨h1, List.pairwise_singleton _ _, ?_⟩
        intro a ha b hb
        simp only [List.map_cons, List.map_nil, List.mem_singleton] at hb
        subst hb
        rcases List.mem_map.mp ha with ⟨e, he2, rfl⟩
        exact h2 e he2
      · intro e hm
        rcases List.mem_append.mp hm with hm | hm
        · exact Nat.lt_succ_of_lt (h2 e hm)
        · simp only [List.mem_singleton] at hm
          subst hm
          exact Nat.lt_succ_self _
      · rw [List.map_append, List.nodup_append]
        refine ⟨h3, List.nodup_singleton _, ?_⟩
        intro a ha hb
        simp only [List.map_cons, List.map_nil, List.mem_singleton] at hb
        subst hb
        rcases List.mem_map.mp ha with ⟨e, he2, hpe⟩
        exact hnew e he2 hpe
      · intro e hm
        rcases List.mem_append.mp hm with hm | hm
        · exact h4 e hm
        · simp only [List.mem_singleton] at hm
          subst hm
          exact he

/-! ## Claim theorems about `put`, `get` and the query engine -/

/-- C8: `put` of a record with an empty import path fails with
`InvalidArgument` and returns the index state unchanged (so the Document
Store and every field index, all views of that state, are unchanged);
`put` of a record with a non-empty import path never produces an error,
in particular never `InvalidArgument`. -/
theorem put_empty_path_invalid (x : Index) (pkg : Package) :
    (pkg.importPath = [] → x.put pkg = (x, some IndexErr.invalidArgument)) ∧
    (pkg.importPath ≠ [] → (x.put pkg).2 = none) := by
  constructor
  · intro he
    unfold Index.put
    rw [if_pos he]
  · intro he
    unfold Index.put
    rw [if_neg he]
    split <;> rfl

/-- A record whose every string field is empty: the canonical
`InvalidArgument` input to `put`. -/
def pkgNoPath : Package where
  importPath := []
  projectRoot := []
  projectName := []
  projectURL := []
  name := []
  synopsis := []
  doc := []
  imports := []
  testImports := []
  payload := 7

/-- The record `pkgNoPath` with the import path `"b"`. -/
def pkgB : Package where
  importPath := ['b']
  projectRoot := []
  projectName := []
  projectURL := []
  name := []
  synopsis := []
  doc := []
  imports := []
  testImports := []
  payload := 7

/-- Witness for C8: an empty-path record on the empty index, and the
same record with the path `"b"`. -/
theorem put_empty_path_invalid_witness :
    (pkgNoPath.importPath = [] →
      Index.new.put pkgNoPath = (Index.new, some IndexErr.invalidArgument)) ∧
    (pkgB.importPath ≠ [] → (Index.new.put pkgB).2 = none) :=
  ⟨(put_empty_path_invalid Index.new pkgNoPath).1,
   (put_empty_path_invalid Index.new pkgB).2⟩

theorem find_replaced (l : List (Nat × Package)) (pkg : Package)
    (hex : (l.any fun e => decide (e.2.importPath = pkg.importPath)) = true) :
    ∃ i, ((l.map fun e =>
        if e.2.importPath = pkg.importPath then (e.1, pkg) else e).find?
          fun e => decide (e.2.importPath = pkg.importPath)) = some (i, pkg) := by
  induction l with
  | nil => cases hex
  | cons a l ih =>
    by_cases ha : a.2.importPath = pkg.importPath
    · refine ⟨a.1, ?_⟩
      rw [List.map_cons, if_pos ha]
      exact List.find?_cons_of_pos _ (decide_eq_true rfl)
    · have hex2 : (l.any fun e => decide (e.2.importPath = pkg.importPath)) = true := by
        rw [List.any_cons] at hex
        rcases Bool.or_eq_true_iff.mp hex with h | h
        · exact absurd (of_decide_eq_true h) ha
        · exact h
      rcases ih hex2 with ⟨i, hf⟩
      refine ⟨i, ?_⟩
      rw [List.map_cons, if_neg ha, List.find?_cons_of_neg _ (by simpa using ha)]
      exact hf

/-- C3: for every index state and every record with a non-empty import
path, `put` succeeds (returns no error) and a subsequent `get` of the
record's import path returns a record equal field-for-field — the
opaque `payload` included — to the record that was stored. -/
theorem put_get_roundtrip (x : Index) (pkg : Package) (h : pkg.importPath ≠ []) :
    (x.put pkg).2 = none ∧
    (x.put pkg).1.get pkg.importPath = Except.ok pkg := by
  unfold Index.put
  rw [if_neg h]
  by_cases hex : (x.docs.any fun e => decide (e.2.importPath = pkg.importPath)) = true
  · rw [if_pos hex]
    refine ⟨rfl, ?_⟩
    unfold Index.get
    rcases find_replaced x.docs pkg hex with ⟨i, hf⟩
    rw [hf]
  · rw [if_neg hex]
    refine ⟨rfl, ?_⟩
    unfold Index.get
    have hn : (x.docs.find? fun e => decide (e.2.importPath = pkg.importPath)) = none := by
      rw [List.find?_eq_none]
      intro e hm hp
      exact hex (List.any_eq_true.mpr ⟨e, hm, hp⟩)
    have h2 : (List.find? (fun e => decide (e.2.importPath = pkg.importPath))
        [(x.nextId, pkg)]) = some (x.nextId, pkg) :=
      List.find?_cons_of_pos _ (by simp)
    rw [List.find?_append, hn, Option.none_or, h2]

theorem nodup_ids {x : Index} (h : x.wf) : (x.docs.map fun e => e.1).Nodup :=
  h.1.imp fun hlt => ne_of_lt hlt

theorem mem_query_idsWhere {x : Index} (hnd : (x.docs.map fun e => e.1).Nodup)
    {p : Package → Bool} {pkg : Package} :
    pkg ∈ x.resolve (x.idsWhere p) ↔ (∃ i, (i, pkg) ∈ x.docs) ∧ p pkg = true := by
  rw [mem_resolve hnd]
  constructor
  · rintro ⟨i, hi, hm⟩
    exact ⟨⟨i, hm⟩, (mem_idsWhere_iff hnd hm p).mp hi⟩
  · rintro ⟨⟨i, hm⟩, hp⟩
    exact ⟨i, (mem_idsWhere_iff hnd hm p).mpr hp, hm⟩

theorem sortByPath_strict {l : List Package}
    (hnd : (l.map fun q => q.importPath).Nodup) :
    List.Pairwise (fun a b : Package => strLt a.importPath b.importPath = true)
      (sortByPath l) := by
  apply pairwise_strLt_of_sorted (sorted_sortByPath l)
  have hperm := (perm_sortByPath l).map fun q => q.importPath
  exact hperm.nodup_iff.mpr hnd

theorem nodup_paths_filter {x : Index}
    (h3 : (x.docs.map fun e => e.2.importPath).Nodup) (p : (Nat × Package) → Bool) :
    (((x.docs.filter p).map fun e => e.2).map fun q => q.importPath).Nodup := by
  rw [List.map_map]
  have hsub := List.Sublist.map (fun e : Nat × Package => e.2.importPath)
    (List.filter_sublist (p := p) x.docs)
  exact h3.sublist hsub

/-! ## Sample data (mirroring the test file's `testPkgs`) -/

/-- A standard-library-style record: empty project root. -/
def pkgStrconv : Package where
  importPath := "strconv".toList
  projectRoot := []
  projectName := "Go".toList
  projectURL := []
  name := "strconv".toList
  synopsis := "converts strings".toList
  doc := []
  imports := ["errors".toList, "math".toList]
  testImports := []
  payload := 1

/-- A hosted package with imports and a project root. -/
def pkgOauth : Package where
  importPath := "x/go-oauth/oauth".toList
  projectRoot := "x/go-oauth".toList
  projectName := "go-oauth".toList
  projectURL := "u".toList
  name := "oauth".toList
  synopsis := "go oauth client".toList
  doc := []
  imports := ["bytes".toList, "strconv".toList]
  testImports := ["testing".toList]
  payload := 2

/-- A name-less directory record (`example.com/src` in the test file):
stored, `Get`-able, but carrying no package. -/
def pkgSrc : Package where
  importPath := "e/src".toList
  projectRoot := "e".toList
  projectName := "e".toList
  projectURL := []
  name := []
  synopsis := []
  doc := []
  imports := []
  testImports := []
  payload := 3

/-- A grandchild package under `e/src`. -/
def pkgSrcA : Package where
  importPath := "e/src/a".toList
  projectRoot := "e".toList
  projectName := "e".toList
  projectURL := []
  name := "a".toList
  synopsis := []
  doc := []
  imports := []
  testImports := []
  payload := 4

/-- A second grandchild package under `e/src`. -/
def pkgSrcB : Package where
  importPath := "e/src/b".toList
  projectRoot := "e".toList
  projectName := "e".toList
  projectURL := []
  name := "b".toList
  synopsis := []
  doc := []
  imports := []
  testImports := []
  payload := 5

/-- A five-document index state mirroring the test file's corpus. -/
def idxSample : Index :=
  ⟨5, [(0, pkgStrconv), (1, pkgOauth), (2, pkgSrc), (3, pkgSrcA), (4, pkgSrcB)]⟩

/-- Witness for C3 at the empty index and the record `pkgB`. -/
theorem put_get_roundtrip_witness :
    pkgB.importPath ≠ [] ∧
    ((Index.new.put pkgB).2 = none ∧
     (Index.new.put pkgB).1.get pkgB.importPath = Except.ok pkgB) :=
  ⟨by decide, put_get_roundtrip Index.new pkgB (by decide)⟩

/-- Counterexample to C1 as stated: the record `pkgSrc` (import path
`e/src`, empty package name, mirroring the test file's
`example.com/src`) is stored in `idxSample`, yet `query("all:")` does
not return it — exactly as the repository's own `testQueries` vector
demands, which lists five of the six stored records. -/
theorem query_all_counterexample :
    (∃ i, (i, pkgSrc) ∈ idxSample.docs) ∧
    pkgSrc ∉ idxSample.query allPre SortBy.byPath := by
  constructor
  · exact ⟨2, by decide⟩
  · decide

/-- C1 (amended): `query("all:", SortByPath)` returns one result per
stored import path whose record has a NON-EMPTY package name (stored
name-less directory records are not indexed), ordered ascending
lexicographically by import path. -/
theorem query_all_returns_named (x : Index) (h : x.wf) :
    (x.query allPre SortBy.byPath).Perm
      ((x.docs.filter fun e => decide (e.2.name ≠ [])).map fun e => e.2) ∧
    List.Pairwise (fun a b : Package => strLt a.importPath b.importPath = true)
      (x.query allPre SortBy.byPath) := by
  have hnd := nodup_ids h
  have hq : x.queryIds allPre = x.allIds := by
    unfold Index.queryIds
    rw [if_pos (by decide)]
  have hres : x.resolve (x.queryIds allPre) =
      (x.docs.filter fun e => decide (e.2.name ≠ [])).map fun e => e.2 := by
    rw [hq, resolve_allIds hnd]
  constructor
  · unfold Index.query
    rw [hres]
    exact perm_sortByPath _
  · unfold Index.query
    rw [hres]
    exact sortByPath_strict (nodup_paths_filter h.2.2.1 _)

/-- Witness for the amended C1 at the five-document sample index. -/
theorem query_all_returns_named_witness :
    idxSample.wf ∧
    ((idxSample.query allPre SortBy.byPath).Perm
        ((idxSample.docs.filter fun e => decide (e.2.name ≠ [])).map fun e => e.2) ∧
      List.Pairwise (fun a b : Package => strLt a.importPath b.importPath = true)
        (idxSample.query allPre SortBy.byPath)) :=
  ⟨by decide, query_all_returns_named idxSample (by decide)⟩

/-- C7: the project-field query with the empty-string key returns
exactly the stored records whose project-root field is the empty
string. -/
theorem query_project_empty (x : Index) (h : x.wf) (pkg : Package) :
    pkg ∈ x.query projectPre SortBy.byPath ↔
      (∃ i, (i, pkg) ∈ x.docs) ∧ pkg.projectRoot = [] := by
  have hnd := nodup_ids h
  have hq : x.queryIds projectPre = x.projectIds [] := by
    unfold Index.queryIds
    rw [if_neg (by decide), if_pos (by decide)]
    rfl
  unfold Index.query
  rw [hq]
  rw [(perm_sortByPath _).mem_iff]
  unfold Index.projectIds
  rw [mem_query_idsWhere hnd]
  simp only [decide_eq_true_eq]

/-- Witness for C7 at the sample index and the empty-root record
`pkgStrconv`. -/
theorem query_project_empty_witness :
    idxSample.wf ∧
    (pkgStrconv ∈ idxSample.query projectPre SortBy.byPath ↔
      (∃ i, (i, pkgStrconv) ∈ idxSample.docs) ∧ pkgStrconv.projectRoot = []) :=
  ⟨by decide, query_project_empty idxSample (by decide) pkgStrconv⟩

/-- The spec §4.5 predicate `isChildPath` captures exactly the
"`parent ++ "/" ++ segment` with a non-empty, slash-free segment"
decomposition. -/
theorem isChildPath_iff (parent path : Str) :
    isChildPath parent path = true ↔
      ∃ seg : Str, seg ≠ [] ∧ '/' ∉ seg ∧ path = parent ++ '/' :: seg := by
  unfold isChildPath
  by_cases hp : parent.isPrefixOf path = true
  · rw [if_pos hp]
    rcases List.isPrefixOf_iff_prefix.mp hp with ⟨t, ht⟩
    have hd : path.drop parent.length = t := by
      rw [← ht]
      exact List.drop_left parent t
    rw [hd]
    cases t with
    | nil =>
      constructor
      · intro hfalse
        exact absurd hfalse (by simp)
      · rintro ⟨seg, hne, hn, hpath⟩
        rw [← ht] at hpath
        have h2 := List.append_cancel_left hpath
        cases h2
    | cons c seg0 =>
      simp only [Bool.and_eq_true, decide_eq_true_eq, Bool.not_eq_true',
        decide_eq_false_iff_not]
      constructor
      · rintro ⟨⟨rfl, hne⟩, hn⟩
        exact ⟨seg0, hne, hn, by rw [← ht]⟩
      · rintro ⟨seg, hne, hn, hpath⟩
        rw [← ht] at hpath
        have h2 := List.append_cancel_left hpath
        injection h2 with hc hs
        subst hc
        subst hs
        exact ⟨⟨rfl, hne⟩, hn⟩
  · rw [if_neg hp]
    constructor
    · intro hfalse
      cases hfalse
    · rintro ⟨seg, _, _, hpath⟩
      exact absurd (List.isPrefixOf_iff_prefix.mpr ⟨'/' :: seg, hpath.symm⟩) hp

/-- Counterexample to C2 as stated: the record `pkgSrcA`, with import
path `e/src/a`, is returned by `subdirs("e")` on the sample index (as
the repository's `testChildren` vector demands of the analogous
`example.com` data), yet `e/src/a` is not `"e" ++ "/" ++ segment` for
any slash-free segment — it is a grandchild, not a direct child. -/
theorem subdirs_counterexample :
    pkgSrcA ∈ idxSample.subdirs ['e'] ∧
    ¬ ∃ seg : Str, seg ≠ [] ∧ '/' ∉ seg ∧
        pkgSrcA.importPath = ['e'] ++ '/' :: seg := by
  constructor
  · decide
  · intro hex
    have h2 := (isChildPath_iff ['e'] pkgSrcA.importPath).mpr hex
    rw [show isChildPath ['e'] pkgSrcA.importPath = false from by decide] at h2
    cases h2

/-- C2 (amended): `subdirs(P)` returns exactly the stored documents
whose import path extends `P ++ "/"` — descendants at ANY depth, not
only direct children — and whose package name is non-empty (name-less
directory records are excluded), sorted ascending by import path; when
no stored document qualifies the result is the empty sequence and never
an error (`subdirs` is a total function into lists). -/
theorem subdirs_descendants (x : Index) (p : Str) (h : x.wf) :
    (∀ pkg : Package, pkg ∈ x.subdirs p ↔
      (∃ i, (i, pkg) ∈ x.docs) ∧
        (p ++ ['/']).isPrefixOf pkg.importPath = true ∧ pkg.name ≠ []) ∧
    List.Pairwise (fun a b : Package => strLt a.importPath b.importPath = true)
      (x.subdirs p) ∧
    ((∀ e ∈ x.docs, ¬((p ++ ['/']).isPrefixOf e.2.importPath = true ∧ e.2.name ≠ [])) →
      x.subdirs p = []) := by
  refine ⟨?_, ?_, ?_⟩
  · intro pkg
    unfold Index.subdirs
    rw [(perm_sortByPath _).mem_iff, List.mem_map]
    constructor
    · rintro ⟨e, hef, rfl⟩
      have h2 := List.mem_filter.mp hef
      have h3 := h2.2
      rw [Bool.and_eq_true] at h3
      exact ⟨⟨e.1, h2.1⟩, h3.1, of_decide_eq_true h3.2⟩
    · rintro ⟨⟨i, hm⟩, hpre, hname⟩
      refine ⟨(i, pkg), List.mem_filter.mpr ⟨hm, ?_⟩, rfl⟩
      rw [Bool.and_eq_true]
      exact ⟨hpre, decide_eq_true hname⟩
  · exact sortByPath_strict (nodup_paths_filter h.2.2.1 _)
  · intro hnone
    unfold Index.subdirs
    have hnil : (x.docs.filter fun e =>
        (p ++ ['/']).isPrefixOf e.2.importPath && decide (e.2.name ≠ [])) = [] := by
      rw [List.filter_eq_nil_iff]
      intro e he hf
      rw [Bool.and_eq_true] at hf
      exact hnone e he ⟨hf.1, of_decide_eq_true hf.2⟩
    rw [hnil]
    rfl

/-- Witness for the amended C2 at the sample index with parent `e`. -/
theorem subdirs_descendants_witness :
    idxSample.wf ∧
    ((∀ pkg : Package, pkg ∈ idxSample.subdirs ['e'] ↔
        (∃ i, (i, pkg) ∈ idxSample.docs) ∧
          ((['e'] ++ ['/']).isPrefixOf pkg.importPath = true ∧ pkg.name ≠ [])) ∧
      List.Pairwise (fun a b : Package => strLt a.importPath b.importPath = true)
        (idxSample.subdirs ['e']) ∧
      ((∀ e ∈ idxSample.docs,
          ¬(((['e'] ++ ['/']).isPrefixOf e.2.importPath = true) ∧ e.2.name ≠ [])) →
        idxSample.subdirs ['e'] = [])) :=
  ⟨by decide, subdirs_descendants idxSample ['e'] (by decide)⟩

/-- C6: a free-text query (one whose prefix is none of `all:`,
`project:`, `import:`) is split on whitespace and lower-cased; a
document is returned exactly when it is stored and EVERY term matches
it (by lower-cased-name equality or by containment among the
tokenized words of its name, synopsis and documentation text) — the
conjunctive intersection of the per-term matching sets — and a query
with zero terms yields the empty result, not the full corpus. -/
theorem query_freetext_conjunctive (x : Index) (q : Str) (h : x.wf)
    (hq1 : allPre.isPrefixOf q = false)
    (hq2 : projectPre.isPrefixOf q = false)
    (hq3 : importPre.isPrefixOf q = false) :
    (fields (strToLower q) = [] → x.query q SortBy.byPath = []) ∧
    ∀ pkg : Package, pkg ∈ x.query q SortBy.byPath ↔
      ((∃ i, (i, pkg) ∈ x.docs) ∧ fields (strToLower q) ≠ [] ∧
        ∀ t ∈ fields (strToLower q),
          strToLower pkg.name = t ∨ t ∈ pkgTerms pkg) := by
  have hnd := nodup_ids h
  have hqi : x.queryIds q =
      (match fields (strToLower q) with
       | [] => []
       | t :: ts =>
         ts.foldl (fun acc t2 => acc.intersect [] (x.termMatchIds t2))
           (x.termMatchIds t)) := by
    unfold Index.queryIds
    rw [hq1, hq2, hq3]
    simp
  constructor
  · intro hfe
    unfold Index.query
    rw [hqi, hfe]
    rfl
  · intro pkg
    unfold Index.query
    rw [(perm_sortByPath _).mem_iff, hqi]
    cases hfe : fields (strToLower q) with
    | nil =>
      simp [Index.resolve]
    | cons t ts =>
      have hsort : ∀ t2, plSorted (x.termMatchIds t2) := fun t2 =>
        sorted_idsWhere h.1 _
      have hfold := foldl_intersect_terms x.termMatchIds ts (x.termMatchIds t)
        (hsort t) hsort
      rw [mem_resolve hnd]
      constructor
      · rintro ⟨i, hi, hm⟩
        have h2 := (hfold.2 i).mp hi
        refine ⟨⟨i, hm⟩, by simp, ?_⟩
        intro t2 ht2
        rcases List.mem_cons.mp ht2 with rfl | ht2
        · exact of_decide_eq_true ((mem_idsWhere_iff hnd hm _).mp h2.1)
        · exact of_decide_eq_true ((mem_idsWhere_iff hnd hm _).mp (h2.2 _ ht2))
      · rintro ⟨⟨i, hm⟩, _, hall⟩
        refine ⟨i, ?_, hm⟩
        apply (hfold.2 i).mpr
        refine ⟨?_, ?_⟩
        · exact (mem_idsWhere_iff hnd hm _).mpr
            (decide_eq_true (hall t (List.mem_cons_self t ts)))
        · intro l2 hl2
          exact (mem_idsWhere_iff hnd hm _).mpr
            (decide_eq_true (hall l2 (List.mem_cons_of_mem t hl2)))

/-- Witness for C6 at the sample index and the two-term query
`"go oauth"`. -/
theorem query_freetext_conjunctive_witness :
    idxSample.wf ∧
    allPre.isPrefixOf "go oauth".toList = false ∧
    projectPre.isPrefixOf "go oauth".toList = false ∧
    importPre.isPrefixOf "go oauth".toList = false ∧
    ((fields (strToLower "go oauth".toList) = [] →
        idxSample.query "go oauth".toList SortBy.byPath = []) ∧
      ∀ pkg : Package, pkg ∈ idxSample.query "go oauth".toList SortBy.byPath ↔
        ((∃ i, (i, pkg) ∈ idxSample.docs) ∧
          fields (strToLower "go oauth".toList) ≠ [] ∧
          ∀ t ∈ fields (strToLower "go oauth".toList),
            strToLower pkg.name = t ∨ t ∈ pkgTerms pkg)) :=
  ⟨by decide, by decide, by decide, by decide,
    query_freetext_conjunctive idxSample "go oauth".toList (by decide) (by decide)
      (by decide) (by decide)⟩

/-- The sample-index analogues of the repository's `testQueries` vectors
that avoid the two-pointer merge: `all:` lists the five named records
sorted by path; `project:` returns the empty-root record; single-term
`oauth` and `strconv` queries return their packages. -/
theorem testQueries_eval :
    (idxSample.query allPre SortBy.byPath).map (fun p => p.importPath) =
      ["e/src/a".toList, "e/src/b".toList, "strconv".toList,
        "x/go-oauth/oauth".toList] ∧
    (idxSample.query projectPre SortBy.byPath).map (fun p => p.importPath) =
      ["strconv".toList] ∧
    (idxSample.query "oauth".toList SortBy.byPath).map (fun p => p.importPath) =
      ["x/go-oauth/oauth".toList] ∧
    (idxSample.query "strconv".toList SortBy.byPath).map (fun p => p.importPath) =
      ["strconv".toList] := by
  decide

/-- The sample-index analogues of the repository's `testChildren`
vectors: descendants of `e` carrying a package name, sorted; unknown
parents yield the empty sequence. -/
theorem testChildren_eval :
    (idxSample.subdirs ['e']).map (fun p => p.importPath) =
      ["e/src/a".toList, "e/src/b".toList] ∧
    idxSample.subdirs "nf".toList = [] ∧
    idxSample.subdirs "nf/path".toList = [] := by
  decide

/-! ## `doc/util.go`: MD5-based conditional fetch (`httpGetBytesCompare`) -/

/-- A byte of a fetched body (a natural number; the MD5 code reduces
modulo `2 ^ 32` wherever the Go code computes on 32-bit words). -/
abbrev Byte := Nat

/-- `2 ^ 32`, the word modulus of MD5's 32-bit arithmetic. -/
def w32 : Nat := 4294967296

/-- Fuel-indexed bitwise AND on binary digits (fuel 32 covers a word). -/
def bitsAnd : Nat → Nat → Nat → Nat
  | 0, _, _ => 0
  | k + 1, x, y => (x % 2) * (y % 2) + 2 * bitsAnd k (x / 2) (y / 2)

/-- Fuel-indexed bitwise OR. -/
def bitsOr : Nat → Nat → Nat → Nat
  | 0, _, _ => 0
  | k + 1, x, y => (x % 2 + y % 2 - (x % 2) * (y % 2)) + 2 * bitsOr k (x / 2) (y / 2)

/-- Fuel-indexed bitwise XOR. -/
def bitsXor : Nat → Nat → Nat → Nat
  | 0, _, _ => 0
  | k + 1, x, y => (x % 2 + y % 2) % 2 + 2 * bitsXor k (x / 2) (y / 2)

/-- 32-bit bitwise AND. -/
def and32 (x y : Nat) : Nat := bitsAnd 32 x y

/-- 32-bit bitwise OR. -/
def or32 (x y : Nat) : Nat := bitsOr 32 x y

/-- 32-bit bitwise XOR. -/
def xor32 (x y : Nat) : Nat := bitsXor 32 x y

/-- 32-bit bitwise complement. -/
def not32 (x : Nat) : Nat := 4294967295 - x % w32

/-- 32-bit left rotation by `s` places. -/
def rotl32 (x s : Nat) : Nat :=
  (x % w32) * 2 ^ s % w32 + x % w32 / 2 ^ (32 - s)

/-- The 64 MD5 sine-derived addition constants
(`floor(2^32 * abs(sin(i+1)))`, RFC 1321), as used by Go's
`crypto/md5`. -/
def md5K : List Nat :=
  [0xd76aa478, 0xe8c7b756, 0x242070db, 0xc1bdceee,
   0xf57c0faf, 0x4787c62a, 0xa8304613, 0xfd469501,
   0x698098d8, 0x8b44f7af, 0xffff5bb1, 0x895cd7be,
   0x6b901122, 0xfd987193, 0xa679438e, 0x49b40821,
   0xf61e2562, 0xc040b340, 0x265e5a51, 0xe9b6c7aa,
   0xd62f105d, 0x02441453, 0xd8a1e681, 0xe7d3fbc8,
   0x21e1cde6, 0xc33707d6, 0xf4d50d87, 0x455a14ed,
   0xa9e3e905, 0xfcefa3f8, 0x676f02d9, 0x8d2a4c8a,
   0xfffa3942, 0x8771f681, 0x6d9d6122, 0xfde5380c,
   0xa4beea44, 0x4bdecfa9, 0xf6bb4b60, 0xbebfbc70,
   0x289b7ec6, 0xeaa127fa, 0xd4ef3085, 0x04881d05,
   0xd9d4d039, 0xe6db99e5, 0x1fa27cf8, 0xc4ac5665,
   0xf4292244, 0x432aff97, 0xab9423a7, 0xfc93a039,
   0x655b59c3, 0x8f0ccc92, 0xffeff47d, 0x85845dd1,
   0x6fa87e4f, 0xfe2ce6e0, 0xa3014314, 0x4e0811a1,
   0xf7537e82, 0xbd3af235, 0x2ad7d2bb, 0xeb86d391]

/-- The 64 per-round left-rotation amounts of MD5. -/
def md5S : List Nat :=
  [7, 12, 17, 22, 7, 12, 17, 22, 7, 12, 17, 22, 7, 12, 17, 22,
   5, 9, 14, 20, 5, 9, 14, 20, 5, 9, 14, 20, 5, 9, 14, 20,
   4, 11, 16, 23, 4, 11, 16, 23, 4, 11, 16, 23, 4, 11, 16, 23,
   6, 10, 15, 21, 6, 10, 15, 21, 6, 10, 15, 21, 6, 10, 15, 21]

/-- The running 128-bit state of MD5, four 32-bit words. -/
structure MD5State where
  a : Nat
  b : Nat
  c : Nat
  d : Nat
deriving DecidableEq, Repr

/-- `n` little-endian bytes of `v` (truncating). -/
def leBytes : Nat → Nat → List Byte
  | 0, _ => []
  | k + 1, v => v % 256 :: leBytes k (v / 256)

/-- Decode a byte sequence into little-endian 32-bit words. -/
def leWords : List Byte → List Nat
  | b0 :: b1 :: b2 :: b3 :: rest =>
    (b0 + 256 * b1 + 65536 * b2 + 16777216 * b3) :: leWords rest
  | _ => []

/-- One of the 64 MD5 rounds on state `(a, b, c, d)` with message words
`M` (RFC 1321 / Go `crypto/md5` block function). -/
def md5Step (M : List Nat) (st : MD5State) (i : Nat) : MD5State :=
  let f :=
    if i < 16 then or32 (and32 st.b st.c) (and32 (not32 st.b) st.d)
    else if i < 32 then or32 (and32 st.b st.d) (and32 st.c (not32 st.d))
    else if i < 48 then xor32 (xor32 st.b st.c) st.d
    else xor32 st.c (or32 st.b (not32 st.d))
  let g :=
    if i < 16 then i
    else if i < 32 then (5 * i + 1) % 16
    else if i < 48 then (3 * i + 5) % 16
    else 7 * i % 16
  let f2 := (f + st.a + md5K.getD i 0 + M.getD g 0) % w32
  ⟨st.d, (st.b + rotl32 f2 (md5S.getD i 0)) % w32, st.b, st.c⟩

/-- Process one 64-byte block: run the 64 rounds and add the result to
the incoming state, word-wise modulo `2 ^ 32`. -/
def md5Block (st : MD5State) (block : List Byte) : MD5State :=
  let M := leWords block
  let st2 := (List.range 64).foldl (md5Step M) st
  ⟨(st.a + st2.a) % w32, (st.b + st2.b) % w32,
   (st.c + st2.c) % w32, (st.d + st2.d) % w32⟩

/-- Process `k` consecutive 64-byte blocks of `msg`. -/
def md5Blocks : Nat → MD5State → List Byte → MD5State
  | 0, st, _ => st
  | k + 1, st, msg => md5Blocks k (md5Block st (msg.take 64)) (msg.drop 64)

/-- MD5 padding: append `0x80`, zero-fill to 56 modulo 64, then the
64-bit little-endian bit length. -/
def md5Pad (msg : List Byte) : List Byte :=
  msg ++ 0x80 :: List.replicate ((119 - msg.length % 64) % 64) 0 ++
    leBytes 8 (msg.length * 8)

/-- The 16-byte MD5 digest of a byte sequence (the `crypto/md5`
`Sum` the Go code computes over the fetched body). -/
def md5 (msg : List Byte) : List Byte :=
  let padded := md5Pad msg
  let st := md5Blocks (padded.length / 64)
    ⟨0x67452301, 0xefcdab89, 0x98badcfe, 0x10325476⟩ padded
  leBytes 4 st.a ++ leBytes 4 st.b ++ leBytes 4 st.c ++ leBytes 4 st.d

/-- One lowercase hexadecimal digit. -/
def hexDigit : Nat → Char
  | 0 => '0' | 1 => '1' | 2 => '2' | 3 => '3'
  | 4 => '4' | 5 => '5' | 6 => '6' | 7 => '7'
  | 8 => '8' | 9 => '9' | 10 => 'a' | 11 => 'b'
  | 12 => 'c' | 13 => 'd' | 14 => 'e' | _ => 'f'

/-- The sixteen characters of Go's `encoding/hex` lowercase alphabet,
`0123456789abcdef`. -/
def hexTable : Str := (List.range 16).map hexDigit

/-- Go's `hex.EncodeToString`: each byte as two lowercase hex digits,
high nibble first. -/
def hexEncode (bs : List Byte) : Str :=
  bs.foldr (fun b acc => hexDigit (b / 16 % 16) :: hexDigit (b % 16) :: acc) []

set_option maxRecDepth 100000 in
/-- The 16-byte digest of the empty message matches the published MD5
test vector. -/
theorem md5_empty_vector :
    hexEncode (md5 []) = "d41d8cd98f00b204e9800998ecf8427e".toList := by
  decide

set_option maxRecDepth 100000 in
/-- The digest of `"abc"` (bytes 97, 98, 99) matches the published MD5
test vector. -/
theorem md5_abc_vector :
    hexEncode (md5 [97, 98, 99]) = "900150983cd24fb0d6963f7d28e17f72".toList := by
  decide

theorem hexDigit_mem (n : Nat) : hexDigit n ∈ hexTable := by
  unfold hexDigit
  split <;> decide

theorem hexEncode_lowercase (bs : List Byte) :
    ∀ c ∈ hexEncode bs, c ∈ hexTable := by
  induction bs with
  | nil => intro c hc; cases hc
  | cons b bs ih =>
    intro c hc
    rcases List.mem_cons.mp hc with rfl | hc
    · exact hexDigit_mem _
    · rcases List.mem_cons.mp hc with rfl | hc
      · exact hexDigit_mem _
      · exact ih c hc

/-- The error values `httpGetBytesCompare` can propagate: `NotFoundError`
and `RemoteError` arise from the fetch, `ErrNotModified` from the etag
comparison. -/
inductive GetError where
  | notFound
  | remote
  | notModified
deriving DecidableEq, Repr

/-- The `([]byte, string, error)` triple returned by
`httpGetBytesCompare` (`body = none` standing for Go's `nil` slice). -/
structure GetBytesResult where
  body : Option (List Byte)
  etag : Str
  err : Option GetError
deriving DecidableEq, Repr

/-- Translated from `doc/util.go` `httpGetBytesCompare`, with the
network fetch (its `httpGetBytes` call) abstracted into the `fetched`
argument: on a fetch error, `(nil, "", err)`; on success, the new etag
is the lowercase-hex MD5 digest of the body, `err` is `ErrNotModified`
exactly when `savedEtag` equals that digest (and `nil` otherwise), and
the body and the new etag are returned in both cases. -/
def httpGetBytesCompare (fetched : Except GetError (List Byte)) (savedEtag : Str) :
    GetBytesResult :=
  match fetched with
  | Except.error e => ⟨none, [], some e⟩
  | Except.ok p =>
    let etag := hexEncode (md5 p)
    ⟨some p, etag, if savedEtag = etag then some GetError.notModified else none⟩

/-- C9: for every saved etag and every successfully fetched body,
`httpGetBytesCompare` computes the new etag as the lowercase
hexadecimal MD5 digest of the body (every character drawn from the
lowercase hex alphabet), returns `ErrNotModified` exactly when the
saved etag equals that digest and no error otherwise, and returns the
body and the new etag in both cases. -/
theorem httpGetBytesCompare_spec (savedEtag : Str) (body : List Byte) :
    (httpGetBytesCompare (Except.ok body) savedEtag).body = some body ∧
    (httpGetBytesCompare (Except.ok body) savedEtag).etag = hexEncode (md5 body) ∧
    (∀ c ∈ (httpGetBytesCompare (Except.ok body) savedEtag).etag, c ∈ hexTable) ∧
    ((httpGetBytesCompare (Except.ok body) savedEtag).err =
        some GetError.notModified ↔
      savedEtag = hexEncode (md5 body)) := by
  refine ⟨rfl, rfl, hexEncode_lowercase _, ?_⟩
  unfold httpGetBytesCompare
  by_cases h : savedEtag = hexEncode (md5 body)
  · simp [h]
  · simp [h]

/-! ## `doc/util.go`: `isDocFile` -/

/-- Go's `strings.HasSuffix`: `s` is at least as long as `suf` and its
final `suf.length` elements equal `suf`. -/
def hasSuffix (s suf : Str) : Bool :=
  decide (suf.length ≤ s.length) && decide (s.drop (s.length - suf.length) = suf)

/-- The characters `".go"`. -/
def goDot : Str := ['.', 'g', 'o']

/-- Translated from `doc/util.go`: the compiled regular expression
`readmePat = ^[Rr][Ee][Aa][Dd][Mm][Ee](?:$|\.)` applied with
`MatchString` — the name starts with the six letters of `readme` in
either case, followed by the end of the name or a literal dot. -/
def readmeMatch : Str → Bool
  | r :: e1 :: a :: d :: m :: e2 :: rest =>
    (decide (r = 'R') || decide (r = 'r')) &&
    (decide (e1 = 'E') || decide (e1 = 'e')) &&
    (decide (a = 'A') || decide (a = 'a')) &&
    (decide (d = 'D') || decide (d = 'd')) &&
    (decide (m = 'M') || decide (m = 'm')) &&
    (decide (e2 = 'E') || decide (e2 = 'e')) &&
    (decide (rest = []) || decide (rest.head? = some '.'))
  | _ => false

/-- Translated from `doc/util.go` `isDocFile`: a `.go` file whose name
does not start with `_` or `.`, or a `readme` file.  (Go's `n[0]` is
evaluated only under the short-circuiting `HasSuffix` test, which
guarantees the name is non-empty; the `getD` default is therefore
never the deciding value.) -/
def isDocFile (n : Str) : Bool :=
  if hasSuffix n goDot && decide (n.getD 0 ' ' ≠ '_') && decide (n.getD 0 ' ' ≠ '.') then
    true
  else readmeMatch n


theorem hasSuffix_iff (s suf : Str) : hasSuffix s suf = true ↔ suf <:+ s := by
  unfold hasSuffix
  rw [Bool.and_eq_true, decide_eq_true_eq, decide_eq_true_eq]
  constructor
  · rintro ⟨hlen, hdrop⟩
    refine ⟨s.take (s.length - suf.length), ?_⟩
    conv_rhs => rw [← List.take_append_drop (s.length - suf.length) s]
    rw [hdrop]
  · rintro ⟨t, rfl⟩
    constructor
    · rw [List.length_append]
      exact Nat.le_add_left _ _
    · have hl : t.length + suf.length - suf.length = t.length := by omega
      rw [List.length_append, hl]
      exact List.drop_left t suf

theorem readmeMatch_iff (n : Str) :
    readmeMatch n = true ↔
      ∃ c1 c2 c3 c4 c5 c6 rest, n = c1 :: c2 :: c3 :: c4 :: c5 :: c6 :: rest ∧
        (c1 = 'R' ∨ c1 = 'r') ∧ (c2 = 'E' ∨ c2 = 'e') ∧ (c3 = 'A' ∨ c3 = 'a') ∧
        (c4 = 'D' ∨ c4 = 'd') ∧ (c5 = 'M' ∨ c5 = 'm') ∧ (c6 = 'E' ∨ c6 = 'e') ∧
        (rest = [] ∨ ∃ r2, rest = '.' :: r2) := by
  cases n with
  | nil => simp [readmeMatch]
  | cons c1 n1 =>
    cases n1 with
    | nil => simp [readmeMatch]
    | cons c2 n2 =>
      cases n2 with
      | nil => simp [readmeMatch]
      | cons c3 n3 =>
        cases n3 with
        | nil => simp [readmeMatch]
        | cons c4 n4 =>
          cases n4 with
          | nil => simp [readmeMatch]
          | cons c5 n5 =>
            cases n5 with
            | nil => simp [readmeMatch]
            | cons c6 rest =>
              constructor
              · intro h
                simp only [readmeMatch, Bool.and_eq_true, Bool.or_eq_true,
                  decide_eq_true_eq] at h
                obtain ⟨⟨⟨⟨⟨⟨h1, h2⟩, h3⟩, h4⟩, h5⟩, h6⟩, h7⟩ := h
                refine ⟨c1, c2, c3, c4, c5, c6, rest, rfl,
                  h1, h2, h3, h4, h5, h6, ?_⟩
                rcases h7 with h7 | h7
                · exact Or.inl h7
                · cases rest with
                  | nil => exact absurd h7 (by simp)
                  | cons r rs =>
                    right
                    refine ⟨rs, ?_⟩
                    rw [show r = '.' from Option.some.inj h7]
              · rintro ⟨d1, d2, d3, d4, d5, d6, rest2, heq,
                  h1, h2, h3, h4, h5, h6, h7⟩
                simp only [List.cons.injEq] at heq
                obtain ⟨e1, e2, e3, e4, e5, e6, e7⟩ := heq
                subst e1
                subst e2
                subst e3
                subst e4
                subst e5
                subst e6
                subst e7
                simp only [readmeMatch, Bool.and_eq_true, Bool.or_eq_true,
                  decide_eq_true_eq]
                refine ⟨⟨⟨⟨⟨⟨h1, h2⟩, h3⟩, h4⟩, h5⟩, h6⟩, ?_⟩
                rcases h7 with rfl | ⟨r2, rfl⟩
                · exact Or.inl rfl
                · right
                  simp

/-- C10: `isDocFile(n)` is true exactly when `n` ends in `".go"` with a
first character other than `_` and `.`, or `n` starts with the six
letters of `readme` in any case followed by the end of the name or a
dot; and the empty name is never a documentation file. -/
theorem isDocFile_correct (n : Str) :
    (isDocFile n = true ↔
      ((goDot <:+ n ∧ n.head? ≠ some '_' ∧ n.head? ≠ some '.') ∨
        ∃ c1 c2 c3 c4 c5 c6 rest, n = c1 :: c2 :: c3 :: c4 :: c5 :: c6 :: rest ∧
          (c1 = 'R' ∨ c1 = 'r') ∧ (c2 = 'E' ∨ c2 = 'e') ∧ (c3 = 'A' ∨ c3 = 'a') ∧
          (c4 = 'D' ∨ c4 = 'd') ∧ (c5 = 'M' ∨ c5 = 'm') ∧ (c6 = 'E' ∨ c6 = 'e') ∧
          (rest = [] ∨ ∃ r2, rest = '.' :: r2))) ∧
    isDocFile [] = false := by
  constructor
  · unfold isDocFile
    have hhead : ∀ c : Char, n ≠ [] → (n.getD 0 ' ' ≠ c ↔ n.head? ≠ some c) := by
      intro c hne
      cases n with
      | nil => exact absurd rfl hne
      | cons a l =>
        constructor
        · intro h hc
          exact h (Option.some.inj hc)
        · intro h hc
          have ha : a = c := hc
          exact h (congrArg some ha)
    by_cases hb : (hasSuffix n goDot && decide (n.getD 0 ' ' ≠ '_') &&
        decide (n.getD 0 ' ' ≠ '.')) = true
    · rw [if_pos hb]
      rw [Bool.and_eq_true, Bool.and_eq_true] at hb
      rcases hb with ⟨⟨hsuf, hn1⟩, hn2⟩
      have hsuf2 := (hasSuffix_iff n goDot).mp hsuf
      have hne : n ≠ [] := by
        rintro rfl
        rcases hsuf2 with ⟨t, ht⟩
        cases t <;> cases ht
      constructor
      · intro _
        exact Or.inl ⟨hsuf2, (hhead '_' hne).mp (of_decide_eq_true hn1),
          (hhead '.' hne).mp (of_decide_eq_true hn2)⟩
      · intro _
        rfl
    · rw [if_neg hb]
      rw [readmeMatch_iff]
      constructor
      · intro h
        exact Or.inr h
      · intro h
        rcases h with ⟨hsuf, h1, h2⟩ | h
        · exfalso
          apply hb
          have hne : n ≠ [] := by
            rintro rfl
            rcases hsuf with ⟨t, ht⟩
            cases t <;> cases ht
          rw [Bool.and_eq_true, Bool.and_eq_true]
          exact ⟨⟨(hasSuffix_iff n goDot).mpr hsuf,
            decide_eq_true ((hhead '_' hne).mpr h1)⟩,
            decide_eq_true ((hhead '.' hne).mpr h2)⟩
        · exact h
  · decide

/-- Spot checks of `isDocFile` on characteristic names. -/
theorem isDocFile_evals :
    isDocFile "main.go".toList = true ∧
    isDocFile "_x.go".toList = false ∧
    isDocFile ".hidden.go".toList = false ∧
    isDocFile "README.md".toList = true ∧
    isDocFile "readme".toList = true ∧
    isDocFile "Readme.txt".toList = true ∧
    isDocFile "readmes".toList = false ∧
    isDocFile ".go".toList = false ∧
    isDocFile [] = false := by
  decide
